import Mathlib

/-!
Verification of the text-processing pipeline of MicrosoftLearnToAudio
(src/src/text_processor.py, class TextProcessor).

Strings are embedded as lists of characters (Str).  Each Python helper is
translated into a structurally recursive Lean function; the regular
expressions of the source are implemented as explicit scanning machines
whose behaviour matches the corresponding re.sub / re.split / re.match
calls on the pattern in question.
-/

/-- Strings of the Python source are modelled as lists of characters. -/
abbrev Str := List Char

/-- Convenience conversion from Lean string literals to the model type. -/
def toL (s : String) : Str := s.toList

/-- Python whitespace for str.strip, str.split and the regex class of
whitespace characters (space, tab, newline, carriage return, vertical
tab, form feed). -/
def isPyWs (c : Char) : Bool :=
  c = ' ' || c = '\t' || c = '\n' || c = '\r' || c = '\x0b' || c = '\x0c'

/-- Terminal sentence punctuation, the character class of dot, bang and
question mark used throughout text_processor.py. -/
def isTermChar (c : Char) : Bool :=
  c = '.' || c = '!' || c = '?'

/-- Drop trailing whitespace (the right half of Python str.strip). -/
def rstrip (l : Str) : Str := (l.reverse.dropWhile isPyWs).reverse

/-- Python str.strip(): drop leading and trailing whitespace. -/
def pyStrip (l : Str) : Str := rstrip (l.dropWhile isPyWs)

/-- Scanner for the first cleanup pattern of text_processor.py line 13:
re.sub of one-or-more whitespace characters with a single space.  The
flag records whether the previous character was whitespace (i.e. whether
we are inside a run that has already emitted its replacement space). -/
def wsGo : Bool → Str → Str
  | _, [] => []
  | prev, c :: rest =>
    if isPyWs c then
      (if prev then wsGo true rest else ' ' :: wsGo true rest)
    else c :: wsGo false rest

/-- First cleanup pattern (text_processor.py line 13): every maximal run
of whitespace is replaced by a single space. -/
def collapseWs (l : Str) : Str := wsGo false l

/-- Number of newline characters in a string. -/
def countNl (l : Str) : Nat := l.count '\n'

/-- Part of a whitespace run before its first newline. -/
def beforeNl (l : Str) : Str := l.takeWhile (fun c => c != '\n')

/-- Part of a whitespace run after its last newline. -/
def afterLastNl (l : Str) : Str :=
  (l.reverse.takeWhile (fun c => c != '\n')).reverse

/-- Replacement performed by the second cleanup pattern
(text_processor.py line 15) on one maximal whitespace run: a run that
contains three or more newlines matches from its first to its last
newline and that match is replaced by two newlines; other runs are left
alone. -/
def emitRun (r : Str) : Str :=
  if 3 ≤ countNl r then beforeNl r ++ '\n' :: '\n' :: afterLastNl r else r

/-- Scanner for the second cleanup pattern: accumulates the current
whitespace run (reversed) and transforms each finished run with emitRun. -/
def nlGo : Str → Str → Str
  | acc, [] => emitRun acc.reverse
  | acc, c :: rest =>
    if isPyWs c then nlGo (c :: acc) rest
    else emitRun acc.reverse ++ c :: nlGo [] rest

/-- Second cleanup pattern (text_processor.py line 15): runs of three or
more newlines, possibly interleaved with other whitespace, are collapsed
to exactly two newlines. -/
def collapseNl (l : Str) : Str := nlGo [] l

/-- Extra characters allowed by the character allowlist of the third
cleanup pattern (text_processor.py line 17), besides word characters and
whitespace. -/
def extraAllowed : List Char :=
  ['-', '.', ',', ';', ':', '!', '?', '¡', '¿',
   'á', 'é', 'í', 'ó', 'ú', 'ñ', 'ü', 'Á', 'É', 'Í', 'Ó', 'Ú', 'Ñ', 'Ü',
   '(', ')', '[', ']', '"', '\'', '/']

/-- Character allowlist of the third cleanup pattern: word characters
(modelled as ASCII alphanumerics and underscore; the accented letters
the pattern lists explicitly are kept through the explicit list),
whitespace, and the listed punctuation. -/
def allowedChar (c : Char) : Bool :=
  c.isAlphanum || c = '_' || isPyWs c || extraAllowed.contains c

/-- Third cleanup pattern (text_processor.py line 17): every character
outside the allowlist is deleted. -/
def removeDisallowed (l : Str) : Str := l.filter allowedChar

/-- Scanner for the punctuation-collapsing patterns (text_processor.py
lines 19-21): a run of copies of the character c is replaced by a single
c.  The flag records whether the previous character was c. -/
def runsGo (c : Char) : Bool → Str → Str
  | _, [] => []
  | prev, x :: rest =>
    if x = c then
      (if prev then runsGo c true rest else c :: runsGo c true rest)
    else x :: runsGo c false rest

/-- Pattern collapsing repeated copies of c to a single c; used with dot,
question mark and bang for cleanup patterns 4 to 6, and with the space
character for the first substitution of normalize_spacing. -/
def collapseRuns (c : Char) (l : Str) : Str := runsGo c false l

/-- TextProcessor basic cleanup (text_processor.py lines 66-75): the six
cleanup patterns applied in order. -/
def basic_cleanup (t : Str) : Str :=
  collapseRuns '!' (collapseRuns '?' (collapseRuns '.'
    (removeDisallowed (collapseNl (collapseWs t)))))

/-- Python text.split applied with a newline separator: accumulator
machine, fields in order (an empty input gives one empty field). -/
def splitLinesGo : Str → Str → List Str
  | acc, [] => [acc.reverse]
  | acc, c :: rest =>
    if c = '\n' then acc.reverse :: splitLinesGo [] rest
    else splitLinesGo (c :: acc) rest

/-- Python text.split with a newline separator. -/
def splitLines (l : Str) : List Str := splitLinesGo [] l

/-- Python newline join of a list of lines. -/
def joinLines (ls : List Str) : Str := List.intercalate ['\n'] ls

/-- Python str.lower for the alphabet of the model: ASCII letters and the
accented uppercase letters of the allowlist. -/
def lowerChar (c : Char) : Char :=
  if c = 'Á' then 'á' else if c = 'É' then 'é' else if c = 'Í' then 'í'
  else if c = 'Ó' then 'ó' else if c = 'Ú' then 'ú' else if c = 'Ñ' then 'ñ'
  else if c = 'Ü' then 'ü'
  else if 'A' ≤ c && c ≤ 'Z' then Char.ofNat (c.toNat + 32)
  else c

/-- Python str.lower on a whole string. -/
def pyLower (l : Str) : Str := l.map lowerChar

/-- Uppercase letters of the model alphabet. -/
def isUpperCh (c : Char) : Bool :=
  ('A' ≤ c && c ≤ 'Z') || ['Á', 'É', 'Í', 'Ó', 'Ú', 'Ñ', 'Ü'].contains c

/-- Lowercase letters of the model alphabet. -/
def isLowerCh (c : Char) : Bool :=
  ('a' ≤ c && c ≤ 'z') || ['á', 'é', 'í', 'ó', 'ú', 'ñ', 'ü'].contains c

/-- Cased characters, as used by Python str.isupper and str.istitle. -/
def isCasedCh (c : Char) : Bool := isUpperCh c || isLowerCh c

/-- Python str.isupper: at least one cased character and no lowercase
character. -/
def pyIsUpper (l : Str) : Bool :=
  l.any isCasedCh && l.all (fun c => !isLowerCh c)

/-- State machine of Python str.istitle: the flag records whether the
previous character was cased; an uppercase letter may not follow a cased
character and a lowercase letter must follow a cased character. -/
def istitleGo : Bool → Str → Bool
  | _, [] => true
  | prev, c :: rest =>
    if isUpperCh c then (if prev then false else istitleGo true rest)
    else if isLowerCh c then (if prev then istitleGo true rest else false)
    else istitleGo false rest

/-- Python str.istitle: titlecased words and at least one cased
character. -/
def pyIsTitle (l : Str) : Bool := l.any isCasedCh && istitleGo false l

/-- Python str.split with no argument: split on whitespace runs and drop
empty fields. -/
def pySplitGo : Str → Str → List Str
  | acc, [] => if acc.isEmpty then [] else [acc.reverse]
  | acc, c :: rest =>
    if isPyWs c then
      (if acc.isEmpty then pySplitGo [] rest
       else acc.reverse :: pySplitGo [] rest)
    else pySplitGo (c :: acc) rest

/-- Python str.split with no argument. -/
def pySplit (l : Str) : List Str := pySplitGo [] l

/-- Phrases filtered by TextProcessor (text_processor.py lines 25-37). -/
def filter_phrases : List Str :=
  [toL "skip to main content", toL "breadcrumb navigation",
   toL "table of contents", toL "in this article", toL "next steps",
   toL "feedback", toL "was this page helpful",
   toL "submit and view feedback", toL "microsoft learn", toL "sign in",
   toL "search", toL "browse", toL "theme", toL "light", toL "dark",
   toL "high contrast", toL "previous unit", toL "next unit",
   toL "completed", toL "check your knowledge", toL "knowledge check",
   toL "leer en ingles", toL "agregar", toL "agregar al plan",
   toL "logros", toL "preguntar a learn", toL "completado",
   toL "comentarios", toL "le ha resultado util esta pagina",
   toL "minutos"]

/-- Python substring containment (the in operator on strings): p occurs
as a contiguous substring of l. -/
def containsSub (p : Str) : Str → Bool
  | [] => p.isEmpty
  | c :: rest => p.isPrefixOf (c :: rest) || containsSub p rest

/-- Nonempty all-digit string, the shape matched by a digits-plus
regex group anchored on both sides. -/
def allDigits1 (l : Str) : Bool := !l.isEmpty && l.all Char.isDigit

/-- Navigation prefixes check of text_processor.py line 98: the
lowercased line starts with http, www. or mailto:. -/
def startsNav (low : Str) : Bool :=
  (toL "http").isPrefixOf low || (toL "www.").isPrefixOf low ||
  (toL "mailto:").isPrefixOf low

/-- Duration suffix check of text_processor.py line 99: the lowercased
line ends with min, sec or hr. -/
def endsTime (low : Str) : Bool :=
  (toL "min").isSuffixOf low || (toL "sec").isSuffixOf low ||
  (toL "hr").isSuffixOf low

/-- Time pattern of text_processor.py line 100: re.match of digits, then
optional whitespace, then one of the duration words, at the start of the
lowercased line. -/
def matchTimeStart (low : Str) : Bool :=
  let d := low.takeWhile Char.isDigit
  !d.isEmpty &&
    (let r := (low.drop d.length).dropWhile isPyWs
     [toL "min", toL "sec", toL "hr", toL "minute", toL "second",
      toL "hour"].any (fun u => u.isPrefixOf r))

/-- Step and unit pattern of text_processor.py line 101: the whole
lowercased line is step followed by digits, unit followed by digits, or
digits followed by a dot. -/
def matchStepUnit (low : Str) : Bool :=
  ((toL "step ").isPrefixOf low && allDigits1 (low.drop 5)) ||
  ((toL "unit ").isPrefixOf low && allDigits1 (low.drop 5)) ||
  (match low.getLast? with
   | some '.' => allDigits1 low.dropLast
   | _ => false)

/-- Filtering decision of text_processor.py lines 86-102 on an already
stripped line: very short lines, lines containing a filtered phrase, and
lines that look like navigation or metadata are dropped. -/
def shouldFilterLine (s : Str) : Bool :=
  if s.length < 3 then true
  else
    let low := pyLower s
    filter_phrases.any (fun p => containsSub p low) ||
    (startsNav low || endsTime low ||
     matchTimeStart low || matchStepUnit low)

/-- Loop of TextProcessor filter of unwanted content (text_processor.py
lines 77-107) over the list of lines: each line is stripped and kept
exactly when the filtering decision rejects none of its rules. -/
def filterLines : List Str → List Str
  | [] => []
  | l :: ls =>
    let s := pyStrip l
    if shouldFilterLine s then filterLines ls else s :: filterLines ls

/-- TextProcessor filter of unwanted content: split into lines, filter,
join with newlines. -/
def filter_unwanted_content (t : Str) : Str :=
  joinLines (filterLines (splitLines t))

/-- Punctuation characters that a heading must not end with
(text_processor.py line 135). -/
def headingEnds : List Char := ['.', '!', '?', ',', ';', ':']

/-- TextProcessor heading test (text_processor.py lines 131-137): short
line, not ending in the listed punctuation, and entirely uppercase or
entirely titlecase or containing a fully uppercase word. -/
def is_heading (s : Str) : Bool :=
  decide (s.length < 100) &&
  !(headingEnds.any (fun c => List.isSuffixOf [c] s)) &&
  (pyIsUpper s || pyIsTitle s || (pySplit s).any pyIsUpper)

/-- Last character is terminal sentence punctuation (the membership test
of text_processor.py line 125). -/
def endsTerm3 (s : Str) : Bool :=
  match s.getLast? with
  | some c => isTermChar c
  | none => false

/-- Loop of TextProcessor structuring pass (text_processor.py lines
109-129) over the list of lines: empty lines are skipped, a heading is
emitted with a dot terminator followed by an empty pause line, any other
line gets a dot appended unless it already ends in terminal
punctuation. -/
def structureLines : List Str → List Str
  | [] => []
  | l :: ls =>
    let s := pyStrip l
    if s.isEmpty then structureLines ls
    else if is_heading s then (s ++ ['.']) :: [] :: structureLines ls
    else (if endsTerm3 s then s else s ++ ['.']) :: structureLines ls

/-- TextProcessor structuring pass: split into lines, structure, join
with newlines. -/
def structure_for_audio (t : Str) : Str :=
  joinLines (structureLines (splitLines t))

/-- TextProcessor spacing normalization (text_processor.py lines
139-150): collapse runs of spaces, collapse blank-line runs, strip every
line. -/
def normalize_spacing (t : Str) : Str :=
  joinLines ((splitLines (collapseNl (collapseRuns ' ' t))).map pyStrip)

/-- TextProcessor clean_and_structure (text_processor.py lines 39-64):
empty input short-circuits to the empty string, otherwise basic cleanup,
filtering, structuring and spacing normalization are applied in order
and the result is stripped. -/
def clean_and_structure (raw : Str) : Str :=
  if raw.isEmpty then []
  else
    pyStrip (normalize_spacing (structure_for_audio
      (filter_unwanted_content (basic_cleanup raw))))

/-- Python-falsy-aware wrapper of clean_and_structure: an absent (None)
input is falsy, exactly like the empty string, and yields the empty
string. -/
def cleanAndStructureOpt : Option Str → Str
  | none => []
  | some t => clean_and_structure t

/-- Sentence endswith test of text_processor.py line 172: the sentence
ends with dot, bang or question mark. -/
def endsTermTuple (s : Str) : Bool :=
  List.isSuffixOf ['.'] s || List.isSuffixOf ['!'] s ||
  List.isSuffixOf ['?'] s

/-- Sentence in canonical terminal-punctuated form (text_processor.py
line 172): a dot is appended when terminal punctuation is missing. -/
def addDot (s : Str) : Str := if endsTermTuple s then s else s ++ ['.']

/-- Canonical emitted form of a sentence inside a chunk
(text_processor.py lines 172-173): terminal punctuation ensured and one
trailing space appended. -/
def canonicalSent (s : Str) : Str := addDot s ++ [' ']

mutual

/-- Field scanner of the sentence split (text_processor.py line 165):
re.split at whitespace runs preceded by terminal punctuation.  The
accumulator holds the current field reversed, so its head is the
character just before the scanner position. -/
def sentGo : Str → Str → List Str
  | acc, [] => [acc.reverse]
  | acc, c :: rest =>
    if isPyWs c &&
       (match acc with | a :: _ => isTermChar a | [] => false) then
      acc.reverse :: sentSkip rest
    else sentGo (c :: acc) rest

/-- Separator scanner of the sentence split: consumes the whitespace run
that forms the separator, then resumes field scanning. -/
def sentSkip : Str → List Str
  | [] => [[]]
  | c :: rest =>
    if isPyWs c then sentSkip rest else sentGo [c] rest

end

/-- Sentence list of split_into_chunks (text_processor.py lines
165-167): strip the text, split after terminal punctuation followed by
whitespace, strip every field and drop the empty ones. -/
def sentencesOf (t : Str) : List Str :=
  ((sentGo [] (pyStrip t)).map pyStrip).filter (fun s => !s.isEmpty)

/-- Accumulation loop of split_into_chunks (text_processor.py lines
168-181): greedy packing of canonical sentences into chunks, flushing
the stripped buffer when the next sentence would overflow. -/
def chunkLoop (maxSize : Nat) : List Str → Str → List Str
  | [], cur => if cur.isEmpty then [] else [pyStrip cur]
  | s :: ss, cur =>
    let sws := canonicalSent s
    if maxSize < cur.length + sws.length then
      (if cur.isEmpty then chunkLoop maxSize ss sws
       else pyStrip cur :: chunkLoop maxSize ss sws)
    else chunkLoop maxSize ss (cur ++ sws)

/-- TextProcessor split_into_chunks (text_processor.py lines 152-182). -/
def split_into_chunks (t : Str) (maxSize : Nat := 4000) : List Str :=
  chunkLoop maxSize (sentencesOf t) []

/-- Wrapper of split_into_chunks over possibly absent input: the source
calls text.strip() unconditionally, so an absent (None) input raises an
AttributeError, modelled as an error value. -/
def splitIntoChunksOpt : Option Str → Except String (List Str)
  | none => Except.error "AttributeError"
  | some t => Except.ok (split_into_chunks t)

/-- String with no leading and no trailing whitespace. -/
def isStripped (l : Str) : Prop :=
  (∀ c, l.head? = some c → isPyWs c = false) ∧
  (∀ c, l.getLast? = some c → isPyWs c = false)

/-- String containing no newline character. -/
def noNl (l : Str) : Prop := ∀ c ∈ l, c ≠ '\n'

/-- Wellformed sentence as produced by the sentence splitter: nonempty
and stripped. -/
def sentOK (s : Str) : Prop := s ≠ [] ∧ isStripped s

/-- Noise classification written after the wording of the specification
(section 4.2): the rules in their stated precedence, first match wins. -/
def specNoise (s : Str) : Bool :=
  if s.length < 3 then true
  else
    let low := pyLower s
    if filter_phrases.any (fun p => containsSub p low) then true
    else if startsNav low then true
    else if endsTime low then true
    else if matchTimeStart low then true
    else if matchStepUnit low then true
    else false

/-- Heading classification written after the wording of the
specification (section 4.3): length below one hundred, no terminal or
clause punctuation at the end, and all uppercase or all titlecase or
some fully uppercase whitespace-delimited word. -/
def specHeading (s : Str) : Bool :=
  decide (s.length < 100) &&
  (match s.getLast? with
   | some c => !headingEnds.contains c
   | none => true) &&
  (pyIsUpper s || pyIsTitle s || (pySplit s).any pyIsUpper)

/-- Structural invariants of the single output line of
clean_and_structure, used to settle the idempotence claim: only
allowlisted characters, the only whitespace is single spaces, no
repeated terminal punctuation, no newline, stripped, and ends in
terminal punctuation when nonempty. -/
def goodLine (l : Str) : Prop :=
  (∀ c ∈ l, allowedChar c = true) ∧
  (∀ c ∈ l, isPyWs c = true → c = ' ') ∧
  l.Chain' (fun a b => ¬(a = ' ' ∧ b = ' ')) ∧
  l.Chain' (fun a b => ¬(a = '.' ∧ b = '.')) ∧
  l.Chain' (fun a b => ¬(a = '?' ∧ b = '?')) ∧
  l.Chain' (fun a b => ¬(a = '!' ∧ b = '!')) ∧
  noNl l ∧ isStripped l ∧
  (l ≠ [] → endsTerm3 l = true)

/-! ### Basic lemmas about stripping -/

theorem dropWhile_head_false {p : Char → Bool} {l : Str} {c : Char}
    (h : (l.dropWhile p).head? = some c) : p c = false := by
  induction l with
  | nil => simp [List.dropWhile] at h
  | cons a rest ih =>
    rw [List.dropWhile_cons] at h
    by_cases hp : p a = true
    · simp [hp] at h; exact ih h
    · replace hp : p a = false := by simpa [Bool.not_eq_true] using hp
      simp [hp] at h
      exact h ▸ hp

theorem dropWhile_eq_self_of_head {p : Char → Bool} {l : Str}
    (h : ∀ c, l.head? = some c → p c = false) : l.dropWhile p = l := by
  cases l with
  | nil => rfl
  | cons a rest =>
    have := h a rfl
    simp [List.dropWhile_cons, this]

theorem dropWhile_append_ne {p : Char → Bool} {a b : Str}
    (h : a.dropWhile p ≠ []) :
    (a ++ b).dropWhile p = a.dropWhile p ++ b := by
  induction a with
  | nil => simp at h
  | cons x rest ih =>
    by_cases hp : p x = true
    · rw [List.dropWhile_cons_of_pos hp] at h
      simp [List.dropWhile_cons_of_pos hp, ih h]
    · replace hp : p x = false := by simpa [Bool.not_eq_true] using hp
      simp [List.dropWhile_cons, hp]

theorem rstrip_nil : rstrip [] = [] := rfl

theorem rstrip_getLast_false {l : Str} {c : Char}
    (h : (rstrip l).getLast? = some c) : isPyWs c = false := by
  unfold rstrip at h
  rw [List.getLast?_reverse] at h
  exact dropWhile_head_false h

theorem rstrip_eq_self {l : Str}
    (h : ∀ c, l.getLast? = some c → isPyWs c = false) : rstrip l = l := by
  unfold rstrip
  rw [dropWhile_eq_self_of_head, List.reverse_reverse]
  intro c hc
  rw [List.head?_reverse] at hc
  exact h c hc

theorem rstrip_eq_nil_iff {l : Str} :
    rstrip l = [] ↔ ∀ c ∈ l, isPyWs c = true := by
  unfold rstrip
  rw [List.reverse_eq_nil_iff, List.dropWhile_eq_nil_iff]
  constructor
  · intro h c hc; exact h c (List.mem_reverse.mpr hc)
  · intro h c hc; exact h c (List.mem_reverse.mp hc)

theorem rstrip_append {a y : Str} (h : rstrip y ≠ []) :
    rstrip (a ++ y) = a ++ rstrip y := by
  unfold rstrip at *
  rw [List.reverse_append, dropWhile_append_ne, List.reverse_append,
    List.reverse_reverse]
  intro hnil
  exact h (by rw [hnil]; rfl)

theorem rstrip_prefix (l : Str) : rstrip l <+: l := by
  have h := List.dropWhile_suffix (l := l.reverse) isPyWs
  have := List.reverse_prefix.mpr h
  simpa [rstrip] using this

theorem head?_of_prefix {a b : Str} (h : a <+: b) (ha : a ≠ []) :
    b.head? = a.head? := by
  obtain ⟨t, ht⟩ := h
  cases a with
  | nil => exact absurd rfl ha
  | cons x r => rw [← ht]; rfl

theorem pyStrip_nil : pyStrip [] = [] := rfl

theorem pyStrip_isStripped (l : Str) : isStripped (pyStrip l) := by
  constructor
  · intro c hc
    unfold pyStrip at hc
    have hne : rstrip (l.dropWhile isPyWs) ≠ [] := by
      intro h0; rw [h0] at hc; exact Option.noConfusion hc
    have hpre := rstrip_prefix (l.dropWhile isPyWs)
    have := head?_of_prefix hpre hne
    rw [hc] at this
    exact dropWhile_head_false this
  · intro c hc
    exact rstrip_getLast_false hc

theorem pyStrip_eq_self {l : Str} (h : isStripped l) : pyStrip l = l := by
  unfold pyStrip
  rw [dropWhile_eq_self_of_head h.1, rstrip_eq_self h.2]

theorem pyStrip_idem (l : Str) : pyStrip (pyStrip l) = pyStrip l :=
  pyStrip_eq_self (pyStrip_isStripped l)

theorem pyStrip_isInfixOf (l : Str) : pyStrip l <:+: l := by
  have h1 : pyStrip l <+: l.dropWhile isPyWs := rstrip_prefix _
  have h2 : l.dropWhile isPyWs <:+ l := List.dropWhile_suffix isPyWs
  exact h1.isInfix.trans h2.isInfix

theorem pyStrip_sublist (l : Str) : List.Sublist (pyStrip l) l :=
  (pyStrip_isInfixOf l).sublist

theorem pyStrip_length_le (l : Str) : (pyStrip l).length ≤ l.length :=
  (pyStrip_sublist l).length_le

theorem pyStrip_subset {l : Str} {c : Char} (h : c ∈ pyStrip l) : c ∈ l :=
  (pyStrip_sublist l).subset h

theorem isTermChar_not_ws {c : Char} (h : isTermChar c = true) :
    isPyWs c = false := by
  unfold isTermChar at h
  rcases Bool.or_eq_true_iff.mp h with h1 | h2
  · rcases Bool.or_eq_true_iff.mp h1 with h3 | h4
    · rw [decide_eq_true_iff.mp h3]; rfl
    · rw [decide_eq_true_iff.mp h4]; rfl
  · rw [decide_eq_true_iff.mp h2]; rfl

theorem getLast?_append_singleton (a : Str) (c : Char) :
    (a ++ [c]).getLast? = some c := by
  simp

theorem isStripped_append_last {b : Str} {c : Char}
    (hb : ∀ d, b.head? = some d → isPyWs d = false)
    (hc : isPyWs c = false) : isStripped (b ++ [c]) := by
  constructor
  · intro d hd
    cases b with
    | nil => simp at hd; exact hd ▸ hc
    | cons x r =>
      simp at hd
      exact hb d (by rw [hd]; rfl)
  · intro d hd
    rw [getLast?_append_singleton] at hd
    cases hd; exact hc

theorem pyStrip_append_space {b : Str} (hb : b ≠ []) (hs : isStripped b) :
    pyStrip (b ++ [' ']) = b := by
  unfold pyStrip
  rw [dropWhile_eq_self_of_head]
  · unfold rstrip
    rw [List.reverse_append]
    simp only [List.reverse_cons, List.reverse_nil, List.nil_append,
      List.singleton_append]
    rw [List.dropWhile_cons_of_pos (by rfl)]
    rw [dropWhile_eq_self_of_head, List.reverse_reverse]
    intro c hc
    rw [List.head?_reverse] at hc
    exact hs.2 c hc
  · intro c hc
    cases b with
    | nil => exact absurd rfl hb
    | cons x r => exact hs.1 c (by simpa using hc)

/-! ### Lemmas about the whitespace-collapsing machine -/

theorem wsGo_ws_space : ∀ (prev : Bool) (l : Str) (c : Char),
    c ∈ wsGo prev l → isPyWs c = true → c = ' ' := by
  intro prev l
  induction l generalizing prev with
  | nil => intro c hc; simp [wsGo] at hc
  | cons a rest ih =>
    intro c hc hw
    unfold wsGo at hc
    by_cases ha : isPyWs a = true
    · simp [ha] at hc
      cases prev with
      | true => simpa using ih true c (by simpa using hc) hw
      | false =>
        simp at hc
        rcases hc with h1 | h2
        · exact h1
        · exact ih true c h2 hw
    · replace ha : isPyWs a = false := by simpa [Bool.not_eq_true] using ha
      simp [ha] at hc
      rcases hc with h1 | h2
      · rw [h1] at hw; rw [hw] at ha; exact absurd ha (by simp)
      · exact ih false c h2 hw

theorem collapseWs_ws_space {l : Str} {c : Char}
    (hc : c ∈ collapseWs l) (hw : isPyWs c = true) : c = ' ' :=
  wsGo_ws_space false l c hc hw

theorem noNl_collapseWs (l : Str) : noNl (collapseWs l) := by
  intro c hc
  intro hceq
  have : isPyWs c = true := by rw [hceq]; rfl
  have := collapseWs_ws_space hc this
  rw [hceq] at this
  exact absurd this (by decide)

theorem wsGo_true_eq_false {l : Str}
    (h : ∀ c, l.head? = some c → isPyWs c = false) :
    wsGo true l = wsGo false l := by
  cases l with
  | nil => rfl
  | cons a rest =>
    have := h a rfl
    simp [wsGo, this]

theorem wsGo_false_eq_self : ∀ (l : Str),
    (∀ c ∈ l, isPyWs c = true → c = ' ') →
    l.Chain' (fun a b => ¬(isPyWs a = true ∧ isPyWs b = true)) →
    wsGo false l = l := by
  intro l
  induction l with
  | nil => intro _ _; rfl
  | cons a rest ih =>
    intro h1 h2
    rw [List.chain'_cons'] at h2
    by_cases ha : isPyWs a = true
    · have haS : a = ' ' := h1 a (by simp) ha
      have hrest : wsGo true rest = wsGo false rest := by
        apply wsGo_true_eq_false
        intro c hc
        have := h2.1 c hc
        rw [Bool.eq_false_iff]
        intro hcw
        exact this ⟨ha, hcw⟩
      unfold wsGo
      simp [ha, haS, hrest, ih (fun c hc hw => h1 c (by simp [hc]) hw) h2.2]
    · replace ha : isPyWs a = false := by simpa [Bool.not_eq_true] using ha
      unfold wsGo
      simp [ha, ih (fun c hc hw => h1 c (by simp [hc]) hw) h2.2]

/-! ### Lemmas about the run-collapsing machine -/

theorem runsGo_subset {c : Char} : ∀ (prev : Bool) (l : Str) (x : Char),
    x ∈ runsGo c prev l → x ∈ l := by
  intro prev l
  induction l generalizing prev with
  | nil => intro x hx; simp [runsGo] at hx
  | cons a rest ih =>
    intro x hx
    unfold runsGo at hx
    by_cases ha : a = c
    · subst ha
      simp at hx
      cases prev with
      | true => simp at hx; exact List.mem_cons_of_mem _ (ih true x hx)
      | false =>
        simp at hx
        rcases hx with h1 | h2
        · simp [h1]
        · exact List.mem_cons_of_mem _ (ih true x h2)
    · simp [ha] at hx
      rcases hx with h1 | h2
      · simp [h1]
      · exact List.mem_cons_of_mem _ (ih false x h2)

theorem runsGo_true_eq_false {c : Char} {l : Str}
    (h : ∀ d, l.head? = some d → d ≠ c) :
    runsGo c true l = runsGo c false l := by
  cases l with
  | nil => rfl
  | cons a rest =>
    have := h a rfl
    simp [runsGo, this]

theorem runsGo_eq_self {c : Char} : ∀ (l : Str),
    l.Chain' (fun a b => ¬(a = c ∧ b = c)) →
    runsGo c false l = l := by
  intro l
  induction l with
  | nil => intro _; rfl
  | cons a rest ih =>
    intro h2
    rw [List.chain'_cons'] at h2
    by_cases ha : a = c
    · have hrest : runsGo c true rest = runsGo c false rest := by
        apply runsGo_true_eq_false
        intro d hd hdc
        exact h2.1 d hd ⟨ha, hdc⟩
      unfold runsGo
      simp [ha, hrest, ih h2.2]
    · unfold runsGo
      simp [ha, ih h2.2]

theorem runsGo_head?_false {c : Char} (l : Str) :
    (runsGo c false l).head? = l.head? := by
  cases l with
  | nil => rfl
  | cons a rest =>
    unfold runsGo
    by_cases ha : a = c
    · subst ha; simp
    · simp [ha]

theorem runsGo_ne_nil {c : Char} : ∀ (prev : Bool) (l : Str),
    (∃ x ∈ l, x ≠ c) → runsGo c prev l ≠ [] := by
  intro prev l
  induction l generalizing prev with
  | nil => intro h; simp at h
  | cons a rest ih =>
    intro h
    unfold runsGo
    by_cases ha : a = c
    · have hrest : ∃ x ∈ rest, x ≠ c := by
        rcases h with ⟨x, hx, hxc⟩
        rcases List.mem_cons.mp hx with h1 | h2
        · exact absurd (h1.trans ha) hxc
        · exact ⟨x, h2, hxc⟩
      cases prev with
      | true => simpa [ha] using ih true hrest
      | false => simp [ha]
    · simp [ha]

theorem runsGo_chain_self {c : Char} : ∀ (prev : Bool) (l : Str),
    (runsGo c prev l).Chain' (fun a b => ¬(a = c ∧ b = c)) ∧
    (∀ d, (runsGo c true l).head? = some d → d ≠ c) := by
  intro prev l
  induction l generalizing prev with
  | nil => exact ⟨by simp [runsGo], by intro d hd; simp [runsGo] at hd⟩
  | cons a rest ih =>
    constructor
    · unfold runsGo
      by_cases ha : a = c
      · cases prev with
        | true => simpa [ha] using (ih true).1
        | false =>
          simp only [ha, if_pos rfl, if_true, Bool.false_eq_true, if_false]
          rw [List.chain'_cons']
          exact ⟨fun y hy hcy => (ih true).2 y hy hcy.2, (ih true).1⟩
      · simp only [if_neg ha]
        rw [List.chain'_cons']
        exact ⟨fun y _ hay => ha hay.1, (ih false).1⟩
    · intro d hd
      unfold runsGo at hd
      by_cases ha : a = c
      · simp [ha] at hd
        exact (ih true).2 d hd
      · simp [ha] at hd
        exact fun hdc => ha (hd.trans hdc)

theorem runsGo_chain_preserve {c d : Char} (hdc : d ≠ c) :
    ∀ (l : Str) (prev : Bool),
    l.Chain' (fun a b => ¬(a = d ∧ b = d)) →
    (runsGo c prev l).Chain' (fun a b => ¬(a = d ∧ b = d)) := by
  intro l
  induction l with
  | nil => intro prev _; simp [runsGo]
  | cons a rest ih =>
    intro prev h
    rw [List.chain'_cons'] at h
    unfold runsGo
    by_cases ha : a = c
    · cases prev with
      | true => simpa [ha] using ih true h.2
      | false =>
        simp only [ha, if_pos rfl, if_true, Bool.false_eq_true, if_false]
        rw [List.chain'_cons']
        refine ⟨?_, ih true h.2⟩
        intro y _ hy
        exact hdc (hy.1.symm)
    · simp only [if_neg ha]
      rw [List.chain'_cons']
      refine ⟨?_, ih false h.2⟩
      intro y hy hay
      rw [runsGo_head?_false] at hy
      exact h.1 y hy hay

theorem getLast?_cons_ne_nil {a : Char} {l : Str} (h : l ≠ []) :
    (a :: l).getLast? = l.getLast? := by
  cases l with
  | nil => exact absurd rfl h
  | cons x r => exact List.getLast?_cons_cons

theorem runsGo_getLast {c d : Char} (hdc : d ≠ c) :
    ∀ (l : Str) (prev : Bool),
    l.getLast? = some d → (runsGo c prev l).getLast? = some d := by
  intro l
  induction l with
  | nil => intro prev h; simp at h
  | cons a rest ih =>
    intro prev h
    cases rest with
    | nil =>
      simp at h
      unfold runsGo
      have ha : ¬(a = c) := fun hac => hdc (h.symm.trans hac)
      simp [ha, runsGo]
      exact h
    | cons b r =>
      have hlast : (b :: r).getLast? = some d := by
        rw [← h]; symm
        exact List.getLast?_cons_cons
      have hmem : d ∈ b :: r := List.mem_of_mem_getLast? hlast
      have hnonnil : runsGo c true (b :: r) ≠ [] :=
        runsGo_ne_nil true (b :: r) ⟨d, hmem, hdc⟩
      have hnonnil2 : runsGo c false (b :: r) ≠ [] :=
        runsGo_ne_nil false (b :: r) ⟨d, hmem, hdc⟩
      unfold runsGo
      by_cases ha : a = c
      · cases prev with
        | true => simpa [ha] using ih true hlast
        | false =>
          simp only [ha, if_pos rfl, if_true, Bool.false_eq_true, if_false]
          rw [getLast?_cons_ne_nil hnonnil]
          exact ih true hlast
      · simp only [if_neg ha]
        rw [getLast?_cons_ne_nil hnonnil2]
        exact ih false hlast

/-! ### Lemmas about the newline-run machine and line splitting -/

theorem emitRun_low {r : Str} (h : countNl r < 3) : emitRun r = r := by
  unfold emitRun
  rw [if_neg]
  omega

theorem countNl_reverse (l : Str) : countNl l.reverse = countNl l := by
  unfold countNl
  exact List.count_reverse ..

theorem nlGo_low : ∀ (l acc : Str),
    countNl acc + countNl l < 3 → nlGo acc l = acc.reverse ++ l := by
  intro l
  induction l with
  | nil =>
    intro acc h
    unfold nlGo
    rw [emitRun_low (by rw [countNl_reverse]; simpa [countNl] using h)]
    simp
  | cons c rest ih =>
    intro acc h
    have hsplit : countNl (c :: rest) = countNl [c] + countNl rest := by
      unfold countNl
      simp [List.count_cons]
      omega
    unfold nlGo
    by_cases hw : isPyWs c = true
    · rw [if_pos hw]
      rw [ih (c :: acc) (by unfold countNl at *; simp [List.count_cons] at *; omega)]
      simp
    · rw [if_neg (by simp [hw])]
      rw [emitRun_low (by rw [countNl_reverse]; unfold countNl at *; omega)]
      rw [ih [] (by unfold countNl at *; simp [List.count_cons] at *; omega)]
      simp

theorem collapseNl_low {l : Str} (h : countNl l < 3) : collapseNl l = l := by
  unfold collapseNl
  rw [nlGo_low l [] (by simpa [countNl] using h)]
  rfl

theorem noNl_countNl {l : Str} (h : noNl l) : countNl l = 0 := by
  unfold countNl
  rw [List.count_eq_zero]
  intro h2
  exact h '\n' h2 rfl

theorem collapseNl_noNl {l : Str} (h : noNl l) : collapseNl l = l :=
  collapseNl_low (by rw [noNl_countNl h]; omega)

theorem splitLinesGo_noNl : ∀ (l acc : Str), noNl l →
    splitLinesGo acc l = [acc.reverse ++ l] := by
  intro l
  induction l with
  | nil => intro acc _; simp [splitLinesGo]
  | cons c rest ih =>
    intro acc h
    unfold splitLinesGo
    rw [if_neg (by exact h c (by simp))]
    rw [ih (c :: acc) (fun d hd => h d (by simp [hd]))]
    simp

theorem splitLines_noNl {l : Str} (h : noNl l) : splitLines l = [l] := by
  unfold splitLines
  rw [splitLinesGo_noNl l [] h]
  rfl

theorem splitLinesGo_append_nl : ∀ (a acc : Str), noNl a →
    splitLinesGo acc (a ++ ['\n']) = [acc.reverse ++ a, []] := by
  intro a
  induction a with
  | nil =>
    intro acc _
    simp [splitLinesGo]
  | cons c rest ih =>
    intro acc h
    rw [List.cons_append]
    unfold splitLinesGo
    rw [if_neg (by exact h c (by simp))]
    rw [ih (c :: acc) (fun d hd => h d (by simp [hd]))]
    simp

theorem splitLines_append_nl {a : Str} (h : noNl a) :
    splitLines (a ++ ['\n']) = [a, []] := by
  unfold splitLines
  rw [splitLinesGo_append_nl a [] h]
  rfl

/-! ### No newline survives the basic cleanup -/

theorem noNl_subset {a b : Str} (hsub : ∀ c ∈ a, c ∈ b) (h : noNl b) :
    noNl a := fun c hc => h c (hsub c hc)

theorem noNl_basic_cleanup (t : Str) : noNl (basic_cleanup t) := by
  have h0 : noNl (collapseWs t) := noNl_collapseWs t
  have h1 : noNl (collapseNl (collapseWs t)) := by
    rw [collapseNl_noNl h0]; exact h0
  have h2 : noNl (removeDisallowed (collapseNl (collapseWs t))) :=
    noNl_subset (fun c hc => (List.mem_filter.mp hc).1) h1
  have h3 := noNl_subset (fun c hc => @runsGo_subset '.' false _ c hc) h2
  have h4 := noNl_subset (fun c hc => @runsGo_subset '?' false _ c hc) h3
  exact noNl_subset (fun c hc => @runsGo_subset '!' false _ c hc) h4

/-! ### Claim C1 -/

/-- Claim C1 counterexample: the first cleanup pass does not preserve the
newline structure of the input.  The input consisting of two letters
separated by a newline contains a newline, but its basic cleanup is the
two letters separated by a space, with no newline left. -/
theorem C1_counterexample :
    basic_cleanup (toL "a\nb") = toL "a b" ∧
    '\n' ∈ toL "a\nb" ∧ '\n' ∉ basic_cleanup (toL "a\nb") := by
  refine ⟨by decide, by decide, by decide⟩

/-- Claim C1, amended: the first cleanup pattern collapses every run of
whitespace, newlines included, to a single space, so no newline survives
the basic cleanup; consequently the newline-collapsing second pattern is
a no-op after the first. -/
theorem C1_amended (t : Str) :
    noNl (basic_cleanup t) ∧ collapseNl (collapseWs t) = collapseWs t :=
  ⟨noNl_basic_cleanup t, collapseNl_noNl (noNl_collapseWs t)⟩

/-! ### Claim C2 -/

/-- Claim C2 counterexample: split_into_chunks does not return an empty
sequence on absent input; it raises an AttributeError because it calls
strip on the absent value. -/
theorem C2_counterexample :
    splitIntoChunksOpt none = Except.error "AttributeError" := rfl

/-- Claim C2, amended: clean_and_structure returns the empty string for
both the empty string and absent input without raising, and
split_into_chunks returns the empty sequence for the empty string for
every chunk-size bound; but split_into_chunks raises on absent input,
which the counterexample records. -/
theorem C2_amended :
    cleanAndStructureOpt none = [] ∧ clean_and_structure [] = [] ∧
    (∀ maxSize : Nat, split_into_chunks [] maxSize = []) ∧
    splitIntoChunksOpt (some []) = Except.ok [] := by
  refine ⟨rfl, rfl, fun maxSize => rfl, rfl⟩

/-! ### Claim C7: the line filter -/

theorem specNoise_eq_shouldFilterLine (s : Str) :
    specNoise s = shouldFilterLine s := by
  unfold specNoise shouldFilterLine
  by_cases hl : s.length < 3
  · simp [hl]
  · simp only [if_neg hl]
    cases h1 : filter_phrases.any (fun p => containsSub p (pyLower s)) <;>
      cases h2 : startsNav (pyLower s) <;>
      cases h3 : endsTime (pyLower s) <;>
      cases h4 : matchTimeStart (pyLower s) <;>
      cases h5 : matchStepUnit (pyLower s) <;>
      simp [h1, h2, h3, h4, h5]

theorem filterLines_eq_filter (lines : List Str) :
    filterLines lines =
      (lines.map pyStrip).filter (fun s => !(shouldFilterLine s)) := by
  induction lines with
  | nil => rfl
  | cons l ls ih =>
    unfold filterLines
    by_cases h : shouldFilterLine (pyStrip l) = true
    · simp [h, ih, List.filter_cons]
    · replace h : shouldFilterLine (pyStrip l) = false := by
        simpa [Bool.not_eq_true] using h
      simp [h, ih, List.filter_cons]

/-- Claim C7: the filtered output is exactly the ordered subsequence of
trimmed input lines on which the noise classification (stated with the
rule precedence of the specification) is false; each surviving line is
kept verbatim after trimming, and in particular the literal line that
contains the phrase about the page being helpful is noise and never
appears in filtered output. -/
theorem C7_filter_exact :
    (∀ lines : List Str,
      filterLines lines =
        (lines.map pyStrip).filter (fun s => !(specNoise s))) ∧
    specNoise (toL "Was this page helpful? Yes No") = true ∧
    (∀ lines : List Str,
      toL "Was this page helpful? Yes No" ∉ filterLines lines) := by
  have hfil : ∀ lines : List Str,
      filterLines lines =
        (lines.map pyStrip).filter (fun s => !(specNoise s)) := by
    intro lines
    rw [filterLines_eq_filter]
    congr 1
    funext s
    rw [specNoise_eq_shouldFilterLine]
  have hnoise : specNoise (toL "Was this page helpful? Yes No") = true := by
    decide
  refine ⟨hfil, hnoise, ?_⟩
  intro lines hmem
  rw [hfil lines] at hmem
  have := (List.mem_filter.mp hmem).2
  rw [hnoise] at this
  exact absurd this (by decide)

/-! ### Claim C8: the heading detector -/

theorem isSuffixOf_singleton {c : Char} {s : Str} :
    List.isSuffixOf [c] s = true ↔ s.getLast? = some c := by
  rw [← List.head?_reverse]
  unfold List.isSuffixOf
  cases hrev : s.reverse with
  | nil => simp [List.isPrefixOf]
  | cons x r =>
    simp only [List.reverse_cons, List.reverse_nil, List.nil_append,
      List.isPrefixOf, Bool.and_true, beq_iff_eq, List.head?,
      Option.some.injEq]
    exact eq_comm

theorem headingEnds_any_eq (s : Str) :
    headingEnds.any (fun c => List.isSuffixOf [c] s) =
      (match s.getLast? with
       | some c => headingEnds.contains c
       | none => false) := by
  cases hl : s.getLast? with
  | none =>
    have hs : s = [] := by
      cases s with
      | nil => rfl
      | cons x r => simp [getLast?_cons_ne_nil] at hl
    subst hs
    decide
  | some d =>
    rw [Bool.eq_iff_iff]
    simp only [List.any_eq_true, isSuffixOf_singleton, hl]
    constructor
    · rintro ⟨c, hc, hcd⟩
      have : d = c := by injection hcd
      simp only [List.contains_eq_any_beq, List.any_eq_true, beq_iff_eq]
      exact ⟨c, hc, this⟩
    · intro hmem
      simp only [List.contains_eq_any_beq, List.any_eq_true,
        beq_iff_eq] at hmem
      rcases hmem with ⟨c, hc, hdc⟩
      exact ⟨c, hc, by rw [hdc]⟩

/-- Claim C8: the heading detector classifies a line as a heading
exactly when its length is below one hundred, its last character is none
of dot, bang, question mark, comma, semicolon, colon, and the line is
entirely uppercase, entirely titlecase, or has a fully uppercase
whitespace-delimited word; this is the classification written after the
specification wording. -/
theorem C8_heading_iff (s : Str) : is_heading s = specHeading s := by
  unfold is_heading specHeading
  rw [headingEnds_any_eq]
  cases hl : s.getLast? <;> simp

/-! ### Claim C5: the structuring pass -/

theorem structureLines_cons (l : Str) (ls : List Str) :
    structureLines (l :: ls) =
      (if (pyStrip l).isEmpty = true then []
       else if is_heading (pyStrip l) = true then [pyStrip l ++ ['.'], []]
       else [if endsTerm3 (pyStrip l) = true then pyStrip l
             else pyStrip l ++ ['.']]) ++ structureLines ls := by
  by_cases he : (pyStrip l).isEmpty = true
  · simp only [structureLines, he, if_true, List.nil_append]
  · by_cases hh : is_heading (pyStrip l) = true
    · simp only [structureLines, he, hh, if_false, if_true,
        Bool.false_eq_true, List.cons_append, List.nil_append]
    · simp only [structureLines, he, hh, if_false,
        Bool.false_eq_true, List.cons_append, List.nil_append]

theorem structureLines_append (a b : List Str) :
    structureLines (a ++ b) = structureLines a ++ structureLines b := by
  induction a with
  | nil => rfl
  | cons l ls ih =>
    rw [List.cons_append, structureLines_cons, structureLines_cons, ih,
      List.append_assoc]

/-- Claim C5: in the structuring pass, a nonempty line classified as a
heading is emitted followed by a dot terminator and then a blank pause
line, and a nonempty non-heading line whose last character is not
terminal punctuation is emitted with a dot appended; in particular the
all-caps overview line is followed by a blank line in structured output
and the line with no period gains one. -/
theorem C5_structuring :
    (∀ (pre post : List Str) (l : Str), pyStrip l ≠ [] →
      is_heading (pyStrip l) = true →
      structureLines (pre ++ l :: post) =
        structureLines pre ++
          (pyStrip l ++ ['.']) :: [] :: structureLines post) ∧
    (∀ (pre post : List Str) (l : Str), pyStrip l ≠ [] →
      is_heading (pyStrip l) = false → endsTerm3 (pyStrip l) = false →
      structureLines (pre ++ l :: post) =
        structureLines pre ++
          (pyStrip l ++ ['.']) :: structureLines post) ∧
    structure_for_audio (toL "POWER PLATFORM OVERVIEW") =
      toL "POWER PLATFORM OVERVIEW.\n" ∧
    structure_for_audio (toL "This has no period") =
      toL "This has no period." := by
  refine ⟨?_, ?_, by decide, by decide⟩
  · intro pre post l hne hh
    rw [structureLines_append, structureLines_cons]
    simp [List.isEmpty_iff, hne, hh]
  · intro pre post l hne hh ht
    rw [structureLines_append, structureLines_cons]
    simp [List.isEmpty_iff, hne, hh, ht]

/-- Claim C5 witness: applying the structuring theorem to the concrete
all-caps heading line with empty surrounding line lists yields the
heading with a dot terminator followed by the blank pause line. -/
theorem C5_structuring_witness :
    structureLines [toL "POWER PLATFORM OVERVIEW"] =
      [toL "POWER PLATFORM OVERVIEW.", []] := by
  have h := C5_structuring.1 [] [] (toL "POWER PLATFORM OVERVIEW")
    (by decide) (by decide)
  simpa using h

/-! ### Wellformedness of the sentence list of the chunker -/

theorem sentencesOf_sentOK {t : Str} {s : Str} (h : s ∈ sentencesOf t) :
    sentOK s := by
  unfold sentencesOf at h
  rcases List.mem_filter.mp h with ⟨hmem, hcond⟩
  rcases List.mem_map.mp hmem with ⟨x, _, hxs⟩
  refine ⟨?_, hxs ▸ pyStrip_isStripped x⟩
  intro h0
  rw [h0] at hcond
  simp at hcond

theorem endsTermTuple_eq_endsTerm3 (s : Str) :
    endsTermTuple s = endsTerm3 s := by
  unfold endsTermTuple endsTerm3
  cases hl : s.getLast? with
  | none =>
    have hs : s = [] := by
      cases s with
      | nil => rfl
      | cons x r => simp [getLast?_cons_ne_nil] at hl
    subst hs
    decide
  | some c =>
    rw [Bool.eq_iff_iff]
    simp only [Bool.or_eq_true, isSuffixOf_singleton, hl,
      Option.some.injEq, isTermChar, decide_eq_true_eq]

theorem addDot_ne_nil {s : Str} (h : s ≠ []) : addDot s ≠ [] := by
  unfold addDot
  split
  · exact h
  · simp

theorem addDot_head {s : Str} : (addDot s).head? = s.head? ∨ s = [] := by
  cases s with
  | nil => exact Or.inr rfl
  | cons x r =>
    left
    by_cases he : endsTermTuple (x :: r) = true
    · simp [addDot, he]
    · simp [addDot, he]

theorem addDot_last {s : Str} (h : s ≠ []) :
    ∃ c, (addDot s).getLast? = some c ∧ isTermChar c = true := by
  unfold addDot
  by_cases he : endsTermTuple s = true
  · rw [if_pos he]
    rw [endsTermTuple_eq_endsTerm3] at he
    unfold endsTerm3 at he
    cases hl : s.getLast? with
    | none => rw [hl] at he; simp at he
    | some c => rw [hl] at he; exact ⟨c, rfl, he⟩
  · rw [if_neg he]
    exact ⟨'.', getLast?_append_singleton s '.', by decide⟩

theorem addDot_endsTerm3 {s : Str} (h : s ≠ []) :
    endsTerm3 (addDot s) = true := by
  obtain ⟨c, hc, ht⟩ := addDot_last h
  unfold endsTerm3
  rw [hc]
  exact ht

theorem addDot_isStripped {s : Str} (h : sentOK s) :
    isStripped (addDot s) := by
  constructor
  · intro c hc
    rcases addDot_head (s := s) with hh | hnil
    · rw [hh] at hc
      exact h.2.1 c hc
    · exact absurd hnil h.1
  · intro c hc
    obtain ⟨d, hd, hterm⟩ := addDot_last h.1
    rw [hd] at hc
    cases hc
    exact isTermChar_not_ws hterm

theorem pyStrip_canonical {s : Str} (h : sentOK s) :
    pyStrip (canonicalSent s) = addDot s := by
  unfold canonicalSent
  exact pyStrip_append_space (addDot_ne_nil h.1) (addDot_isStripped h)

theorem canonical_ne_nil (s : Str) : canonicalSent s ≠ [] := by
  unfold canonicalSent
  simp

/-! ### Claim C10: every chunk is nonempty and terminal-punctuated -/

theorem head?_append_left {a b : Str} (h : a ≠ []) :
    (a ++ b).head? = a.head? := by
  cases a with
  | nil => exact absurd rfl h
  | cons x r => rfl

theorem chunkInv_extend {cur : Str} {s : Str} (hs : sentOK s)
    (hinv : cur = [] ∨
      ∃ b, cur = b ++ [' '] ∧ b ≠ [] ∧ isStripped b ∧ endsTerm3 b = true) :
    ∃ b, cur ++ canonicalSent s = b ++ [' '] ∧ b ≠ [] ∧ isStripped b ∧
      endsTerm3 b = true := by
  rcases hinv with hnil | ⟨b, hb, hbne, hbs, hbt⟩
  · subst hnil
    refine ⟨addDot s, rfl, addDot_ne_nil hs.1, addDot_isStripped hs, ?_⟩
    exact addDot_endsTerm3 hs.1
  · subst hb
    refine ⟨b ++ [' '] ++ addDot s, by simp [canonicalSent], by simp, ?_, ?_⟩
    · constructor
      · intro c hc
        rw [head?_append_left (by simp [hbne]),
          head?_append_left hbne] at hc
        exact hbs.1 c hc
      · intro c hc
        rw [List.getLast?_append_of_ne_nil _ (addDot_ne_nil hs.1)] at hc
        obtain ⟨d, hd, hterm⟩ := addDot_last hs.1
        rw [hd] at hc
        cases hc
        exact isTermChar_not_ws hterm
    · unfold endsTerm3
      rw [List.getLast?_append_of_ne_nil _ (addDot_ne_nil hs.1)]
      exact addDot_endsTerm3 hs.1

theorem chunkLoop_chunks_ok (maxSize : Nat) :
    ∀ (ss : List Str) (cur : Str),
    (∀ s ∈ ss, sentOK s) →
    (cur = [] ∨
      ∃ b, cur = b ++ [' '] ∧ b ≠ [] ∧ isStripped b ∧ endsTerm3 b = true) →
    ∀ c ∈ chunkLoop maxSize ss cur, c ≠ [] ∧ endsTerm3 c = true := by
  intro ss
  induction ss with
  | nil =>
    intro cur _ hinv c hc
    unfold chunkLoop at hc
    rcases hinv with hnil | ⟨b, hb, hbne, hbs, hbt⟩
    · subst hnil; simp at hc
    · subst hb
      rw [if_neg (by simp [hbne])] at hc
      rcases List.mem_singleton.mp hc with h
      rw [h, pyStrip_append_space hbne hbs]
      exact ⟨hbne, hbt⟩
  | cons s rest ih =>
    intro cur hss hinv c hc
    have hs : sentOK s := hss s (by simp)
    have hrest : ∀ x ∈ rest, sentOK x := fun x hx => hss x (by simp [hx])
    unfold chunkLoop at hc
    have hnewinv : ∃ b, canonicalSent s = b ++ [' '] ∧ b ≠ [] ∧
        isStripped b ∧ endsTerm3 b = true := by
      have := chunkInv_extend hs (Or.inl rfl)
      simpa using this
    by_cases hcond : maxSize < cur.length + (canonicalSent s).length
    · rw [if_pos hcond] at hc
      rcases hinv with hnil | ⟨b, hb, hbne, hbs, hbt⟩
      · subst hnil
        simp only [List.isEmpty_nil, if_true] at hc
        exact ih (canonicalSent s) hrest (Or.inr hnewinv) c hc
      · subst hb
        rw [if_neg (by simp [hbne])] at hc
        rcases List.mem_cons.mp hc with h1 | h2
        · rw [h1, pyStrip_append_space hbne hbs]
          exact ⟨hbne, hbt⟩
        · exact ih (canonicalSent s) hrest (Or.inr hnewinv) c h2
    · rw [if_neg hcond] at hc
      exact ih (cur ++ canonicalSent s) hrest
        (Or.inr (chunkInv_extend hs hinv)) c hc

/-- Claim C10: every chunk produced by split_into_chunks is a nonempty
string whose last character is terminal sentence punctuation (dot, bang
or question mark), with no trailing whitespace. -/
theorem C10_chunk_terminal (t : Str) (maxSize : Nat) :
    ∀ c ∈ split_into_chunks t maxSize,
      c ≠ [] ∧ endsTermTuple c = true := by
  intro c hc
  have := chunkLoop_chunks_ok maxSize (sentencesOf t) []
    (fun s hs => sentencesOf_sentOK hs) (Or.inl rfl) c hc
  rw [endsTermTuple_eq_endsTerm3]
  exact this

/-- Claim C10 witness: the theorem applied to a concrete two-sentence
text whose single chunk is nonempty and ends in a dot. -/
theorem C10_chunk_terminal_witness :
    toL "Hi there. Bye." ∈ split_into_chunks (toL "Hi there. Bye.") 4000 ∧
    (toL "Hi there. Bye." ≠ [] ∧
      endsTermTuple (toL "Hi there. Bye.") = true) :=
  ⟨by decide, C10_chunk_terminal (toL "Hi there. Bye.") 4000
    (toL "Hi there. Bye.") (by decide)⟩

/-! ### Claim C3: chunk size bound -/

theorem chunkLoop_size (maxSize : Nat) (S : Str → Prop) :
    ∀ (ss : List Str) (cur : Str),
    (∀ s ∈ ss, sentOK s ∧ S s) →
    (cur = [] ∨ cur.length ≤ maxSize ∨
      ∃ s, S s ∧ sentOK s ∧ cur = canonicalSent s) →
    ∀ c ∈ chunkLoop maxSize ss cur,
      c.length ≤ maxSize ∨ ∃ s, S s ∧ c = addDot s := by
  intro ss
  induction ss with
  | nil =>
    intro cur _ hinv c hc
    unfold chunkLoop at hc
    by_cases hne : cur.isEmpty = true
    · rw [if_pos hne] at hc
      simp at hc
    · rw [if_neg hne] at hc
      rcases List.mem_singleton.mp hc with h
      subst h
      rcases hinv with hnil | hlen | ⟨s, hS, hsOK, hcur⟩
      · rw [hnil] at hne; simp at hne
      · exact Or.inl (le_trans (pyStrip_length_le cur) hlen)
      · right
        exact ⟨s, hS, by rw [hcur, pyStrip_canonical hsOK]⟩
  | cons s rest ih =>
    intro cur hss hinv c hc
    have hs : sentOK s ∧ S s := hss s (by simp)
    have hrest : ∀ x ∈ rest, sentOK x ∧ S x := fun x hx => hss x (by simp [hx])
    unfold chunkLoop at hc
    by_cases hcond : maxSize < cur.length + (canonicalSent s).length
    · rw [if_pos hcond] at hc
      have hnewinv : canonicalSent s = [] ∨
          (canonicalSent s).length ≤ maxSize ∨
          ∃ x, S x ∧ sentOK x ∧ canonicalSent s = canonicalSent x :=
        Or.inr (Or.inr ⟨s, hs.2, hs.1, rfl⟩)
      by_cases hne : cur.isEmpty = true
      · rw [if_pos hne] at hc
        exact ih (canonicalSent s) hrest hnewinv c hc
      · rw [if_neg hne] at hc
        rcases List.mem_cons.mp hc with h1 | h2
        · subst h1
          rcases hinv with hnil | hlen | ⟨x, hS, hxOK, hcur⟩
          · rw [hnil] at hne; simp at hne
          · exact Or.inl (le_trans (pyStrip_length_le cur) hlen)
          · right
            exact ⟨x, hS, by rw [hcur, pyStrip_canonical hxOK]⟩
        · exact ih (canonicalSent s) hrest hnewinv c h2
    · rw [if_neg hcond] at hc
      have hlen : (cur ++ canonicalSent s).length ≤ maxSize := by
        rw [List.length_append]
        omega
      exact ih (cur ++ canonicalSent s) hrest (Or.inr (Or.inl hlen)) c hc

/-- Claim C3: every chunk of split_into_chunks has length at most the
chunk-size bound, except that a chunk may exceed the bound only when it
is the terminal-punctuated form of one single whole sentence of the
text; a sentence is never split across chunks. -/
theorem C3_chunk_size (t : Str) (maxSize : Nat) :
    ∀ c ∈ split_into_chunks t maxSize,
      c.length ≤ maxSize ∨ ∃ s ∈ sentencesOf t, c = addDot s := by
  intro c hc
  have := chunkLoop_size maxSize (fun s => s ∈ sentencesOf t)
    (sentencesOf t) []
    (fun s hs => ⟨sentencesOf_sentOK hs, hs⟩) (Or.inl rfl) c hc
  rcases this with h | ⟨s, hS, hdot⟩
  · exact Or.inl h
  · exact Or.inr ⟨s, hS, hdot⟩

/-- Claim C3 witness: the theorem applied to a concrete text and a small
bound; the first chunk is a member of the chunk list and satisfies the
size disjunction. -/
theorem C3_chunk_size_witness :
    toL "Hi." ∈ split_into_chunks (toL "Hi. Yo.") 3 ∧
    ((toL "Hi.").length ≤ 3 ∨
      ∃ s ∈ sentencesOf (toL "Hi. Yo."), toL "Hi." = addDot s) :=
  ⟨by decide, C3_chunk_size (toL "Hi. Yo.") 3 (toL "Hi.") (by decide)⟩

/-! ### Claim C4: chunk concatenation reproduces the sentence sequence -/

theorem intercalate_singleton (sep x : Str) :
    List.intercalate sep [x] = x := by
  simp [List.intercalate]

theorem intercalate_cons_ne {sep x : Str} {xs : List Str} (h : xs ≠ []) :
    List.intercalate sep (x :: xs) = x ++ sep ++ List.intercalate sep xs := by
  cases xs with
  | nil => exact absurd rfl h
  | cons y t => simp [List.intercalate, List.intersperse]

theorem chunkLoop_ne_nil (maxSize : Nat) :
    ∀ (ss : List Str) (cur : Str), cur ≠ [] →
    chunkLoop maxSize ss cur ≠ [] := by
  intro ss
  induction ss with
  | nil =>
    intro cur hcur
    unfold chunkLoop
    rw [if_neg (by simp [hcur])]
    simp
  | cons s rest ih =>
    intro cur hcur
    unfold chunkLoop
    by_cases hcond : maxSize < cur.length + (canonicalSent s).length
    · rw [if_pos hcond, if_neg (by simp [hcur])]
      simp
    · rw [if_neg hcond]
      exact ih (cur ++ canonicalSent s) (by simp [hcur])

theorem canonicalSent_head {s : Str} (h : sentOK s) :
    ∃ c, (canonicalSent s).head? = some c ∧ isPyWs c = false := by
  have hh : (canonicalSent s).head? = s.head? := by
    unfold canonicalSent
    rw [head?_append_left (addDot_ne_nil h.1)]
    rcases @addDot_head s with h1 | h2
    · exact h1
    · exact absurd h2 h.1
  cases hs : s with
  | nil => exact absurd hs h.1
  | cons x r =>
    refine ⟨x, ?_, ?_⟩
    · rw [← hs, hh, hs]; rfl
    · exact h.2.1 x (by rw [hs]; rfl)

theorem strip_append_parts {b Y : Str} (hbne : b ≠ []) (hbs : isStripped b)
    {c : Char} (hY : Y.head? = some c) (hc : isPyWs c = false) :
    pyStrip (b ++ [' '] ++ Y) = b ++ [' '] ++ pyStrip Y := by
  have hYne : Y ≠ [] := by
    intro h0; rw [h0] at hY; exact Option.noConfusion hY
  have hcY : c ∈ Y := by
    cases Y with
    | nil => exact absurd rfl hYne
    | cons y r =>
      injection hY with h3
      rw [← h3]
      exact List.mem_cons_self _ _
  have h1 : List.dropWhile isPyWs (b ++ [' '] ++ Y) = b ++ [' '] ++ Y := by
    apply dropWhile_eq_self_of_head
    intro d hd
    rw [head?_append_left (by simp [hbne]), head?_append_left hbne] at hd
    exact hbs.1 d hd
  have h2 : List.dropWhile isPyWs Y = Y := by
    apply dropWhile_eq_self_of_head
    intro d hd
    rw [hY] at hd
    injection hd with h3
    rw [← h3]; exact hc
  have hrne : rstrip Y ≠ [] := by
    rw [Ne, rstrip_eq_nil_iff]
    intro hall
    have := hall c hcY
    rw [hc] at this
    exact Bool.noConfusion this
  unfold pyStrip
  rw [h1, h2, rstrip_append hrne]

theorem join_canonical_strip :
    ∀ (ss : List Str), (∀ s ∈ ss, sentOK s) →
    pyStrip (List.flatten (ss.map canonicalSent)) =
      List.intercalate [' '] (ss.map addDot) := by
  intro ss
  induction ss with
  | nil => simp [List.intercalate, pyStrip_nil]
  | cons s rest ih =>
    intro hss
    have hs : sentOK s := hss s (by simp)
    have hrest : ∀ x ∈ rest, sentOK x := fun x hx => hss x (by simp [hx])
    cases rest with
    | nil =>
      simp only [List.map_cons, List.map_nil, List.flatten_cons,
        List.flatten_nil, List.append_nil]
      rw [intercalate_singleton]
      exact pyStrip_canonical hs
    | cons r t =>
      simp only [List.map_cons, List.flatten_cons]
      obtain ⟨c, hch, hcw⟩ := canonicalSent_head (hrest r (by simp))
      have hY : (canonicalSent r ++
          List.flatten (t.map canonicalSent)).head? = some c := by
        rw [head?_append_left (canonical_ne_nil r), hch]
      have heq : canonicalSent s ++
          (canonicalSent r ++ List.flatten (t.map canonicalSent)) =
          addDot s ++ [' '] ++
            (canonicalSent r ++ List.flatten (t.map canonicalSent)) := by
        unfold canonicalSent
        simp [List.append_assoc]
      rw [heq, strip_append_parts (addDot_ne_nil hs.1)
        (addDot_isStripped hs) hY hcw]
      have ihr := ih hrest
      simp only [List.map_cons, List.flatten_cons] at ihr
      have hic : List.intercalate [' ']
          (addDot s :: addDot r :: List.map addDot t) =
          addDot s ++ [' '] ++
            List.intercalate [' '] (addDot r :: List.map addDot t) :=
        intercalate_cons_ne (by simp)
      rw [hic, ihr]

theorem chunkLoop_concat (maxSize : Nat) :
    ∀ (ss : List Str) (cur : Str),
    (∀ s ∈ ss, sentOK s) →
    (cur = [] ∨
      ∃ b, cur = b ++ [' '] ∧ b ≠ [] ∧ isStripped b ∧ endsTerm3 b = true) →
    List.intercalate [' '] (chunkLoop maxSize ss cur) =
      pyStrip (cur ++ List.flatten (ss.map canonicalSent)) := by
  intro ss
  induction ss with
  | nil =>
    intro cur _ hinv
    unfold chunkLoop
    rcases hinv with hnil | ⟨b, hb, hbne, hbs, _⟩
    · subst hnil
      simp [List.intercalate, pyStrip_nil]
    · subst hb
      rw [if_neg (by simp [hbne]), intercalate_singleton]
      simp
  | cons s rest ih =>
    intro cur hss hinv
    have hs : sentOK s := hss s (by simp)
    have hrest : ∀ x ∈ rest, sentOK x := fun x hx => hss x (by simp [hx])
    unfold chunkLoop
    by_cases hcond : maxSize < cur.length + (canonicalSent s).length
    · rw [if_pos hcond]
      rcases hinv with hnil | ⟨b, hb, hbne, hbs, hbt⟩
      · subst hnil
        simp only [List.isEmpty_nil, if_true]
        rw [ih (canonicalSent s) hrest
          (Or.inr (by simpa using chunkInv_extend hs (Or.inl rfl)))]
        simp [List.map_cons, List.flatten_cons]
      · subst hb
        rw [if_neg (by simp [hbne])]
        have hni : chunkLoop maxSize rest (canonicalSent s) ≠ [] :=
          chunkLoop_ne_nil maxSize rest _ (canonical_ne_nil s)
        rw [intercalate_cons_ne hni, pyStrip_append_space hbne hbs]
        rw [ih (canonicalSent s) hrest
          (Or.inr (by simpa using chunkInv_extend hs (Or.inl rfl)))]
        obtain ⟨c, hch, hcw⟩ := canonicalSent_head hs
        have hY : (canonicalSent s ++
            List.flatten (rest.map canonicalSent)).head? = some c := by
          rw [head?_append_left (canonical_ne_nil s), hch]
        have hR : pyStrip (b ++ [' '] ++
            (canonicalSent s ++ List.flatten (rest.map canonicalSent))) =
            b ++ [' '] ++ pyStrip (canonicalSent s ++
              List.flatten (rest.map canonicalSent)) :=
          strip_append_parts hbne hbs hY hcw
        simp only [List.map_cons, List.flatten_cons]
        rw [List.append_assoc b [' ']]
        rw [hR]
        simp [List.append_assoc]
    · rw [if_neg hcond]
      rw [ih (cur ++ canonicalSent s) hrest
        (Or.inr (chunkInv_extend hs hinv))]
      simp [List.map_cons, List.flatten_cons, List.append_assoc]

/-- Claim C4: concatenating the chunks of split_into_chunks in order,
with the single separating space the chunker uses between sentences,
yields exactly the text's sentence sequence in original order with the
inserted terminal punctuation - no sentence is lost, duplicated or
reordered, and the result is the structured text modulo whitespace
normalization. -/
theorem C4_concatenation (t : Str) (maxSize : Nat) :
    List.intercalate [' '] (split_into_chunks t maxSize) =
      List.intercalate [' '] ((sentencesOf t).map addDot) := by
  unfold split_into_chunks
  rw [chunkLoop_concat maxSize (sentencesOf t) []
    (fun s hs => sentencesOf_sentOK hs) (Or.inl rfl)]
  rw [List.nil_append]
  exact join_canonical_strip (sentencesOf t) (fun s hs => sentencesOf_sentOK hs)

/-! ### Helpers for the pipeline evaluation lemma -/

theorem dropWhile_append_nil {p : Char → Bool} {a b : Str}
    (h : a.dropWhile p = []) :
    (a ++ b).dropWhile p = b.dropWhile p := by
  induction a with
  | nil => rfl
  | cons x rest ih =>
    by_cases hp : p x = true
    · rw [List.dropWhile_cons_of_pos hp] at h
      simp [List.dropWhile_cons_of_pos hp, ih h]
    · rw [List.dropWhile_cons_of_neg hp] at h
      exact absurd h (by simp)

theorem rstrip_append_ws {m : Str} {c : Char} (hc : isPyWs c = true) :
    rstrip (m ++ [c]) = rstrip m := by
  unfold rstrip
  rw [List.reverse_append]
  simp only [List.reverse_cons, List.reverse_nil, List.nil_append,
    List.singleton_append]
  rw [List.dropWhile_cons_of_pos hc]

theorem pyStrip_append_ws {z : Str} {c : Char} (hc : isPyWs c = true) :
    pyStrip (z ++ [c]) = pyStrip z := by
  unfold pyStrip
  by_cases hz : z.dropWhile isPyWs = []
  · rw [dropWhile_append_nil hz, hz]
    simp [List.dropWhile, hc, rstrip_nil]
  · rw [dropWhile_append_ne hz, rstrip_append_ws hc]

theorem runsGo_append_single {c d : Char} (hdc : d ≠ c) :
    ∀ (l : Str) (prev : Bool),
    runsGo c prev (l ++ [d]) = runsGo c prev l ++ [d] := by
  intro l
  induction l with
  | nil =>
    intro prev
    simp [runsGo, hdc]
  | cons x rest ih =>
    intro prev
    rw [List.cons_append]
    unfold runsGo
    by_cases hx : x = c
    · cases prev with
      | true => simp [hx, ih]
      | false => simp [hx, ih]
    · simp [hx, ih]

theorem mem_of_head? {y : Char} {l : Str} (h : l.head? = some y) : y ∈ l := by
  cases l with
  | nil => exact Option.noConfusion h
  | cons x r =>
    injection h with h1
    rw [← h1]
    exact List.mem_cons_self _ _

theorem chain_space_to_ws {L : Str}
    (hc : ∀ c ∈ L, isPyWs c = true → c = ' ')
    (hch : L.Chain' (fun a b => ¬(a = ' ' ∧ b = ' '))) :
    L.Chain' (fun a b => ¬(isPyWs a = true ∧ isPyWs b = true)) := by
  induction L with
  | nil => simp
  | cons x rest ih =>
    rw [List.chain'_cons'] at hch ⊢
    constructor
    · intro y hy hxy
      have hx : x = ' ' := hc x (by simp) hxy.1
      have hyL : y ∈ rest := mem_of_head? hy
      have hy2 : y = ' ' := hc y (List.mem_cons_of_mem _ hyL) hxy.2
      exact hch.1 y hy ⟨hx, hy2⟩
    · exact ih (fun c hcm hw => hc c (by simp [hcm]) hw) hch.2

theorem collapseRuns_space_stripped {y : Str} (h : isStripped y) :
    isStripped (collapseRuns ' ' y) := by
  constructor
  · intro c hc
    unfold collapseRuns at hc
    rw [runsGo_head?_false] at hc
    exact h.1 c hc
  · intro c hc
    unfold collapseRuns at hc
    cases hy : y.getLast? with
    | none =>
      have : y = [] := by
        cases y with
        | nil => rfl
        | cons a r => simp [getLast?_cons_ne_nil] at hy
      rw [this] at hc
      exact Option.noConfusion hc
    | some d =>
      have hdw : isPyWs d = false := h.2 d hy
      have hds : d ≠ ' ' := by
        intro h0; rw [h0] at hdw; exact Bool.noConfusion hdw
      have := runsGo_getLast hds y false hy
      rw [this] at hc
      injection hc with h1
      rw [← h1]
      exact hdw

theorem joinLines_nil : joinLines [] = [] := rfl

theorem joinLines_singleton (x : Str) : joinLines [x] = x :=
  intercalate_singleton ['\n'] x

theorem joinLines_pair_blank (a : Str) : joinLines [a, []] = a ++ ['\n'] := by
  unfold joinLines
  rw [intercalate_cons_ne (by simp), intercalate_singleton]
  simp

theorem filter_unwanted_single {B : Str} (h : noNl B) :
    filter_unwanted_content B =
      if shouldFilterLine (pyStrip B) = true then [] else pyStrip B := by
  unfold filter_unwanted_content
  rw [splitLines_noNl h]
  unfold filterLines
  by_cases hf : shouldFilterLine (pyStrip B) = true
  · simp only [hf, if_true]
    exact joinLines_nil
  · simp only [hf, if_false, Bool.false_eq_true]
    exact joinLines_singleton _

theorem structure_single {y : Str} (hnl : noNl y) :
    structure_for_audio y =
      if (pyStrip y).isEmpty = true then []
      else if is_heading (pyStrip y) = true then pyStrip y ++ ['.', '\n']
      else if endsTerm3 (pyStrip y) = true then pyStrip y
      else pyStrip y ++ ['.'] := by
  unfold structure_for_audio
  rw [splitLines_noNl hnl, structureLines_cons]
  by_cases he : (pyStrip y).isEmpty = true
  · simp only [he, if_true]
    exact joinLines_nil
  · by_cases hh : is_heading (pyStrip y) = true
    · simp only [he, hh, if_true, if_false, Bool.false_eq_true]
      rw [show structureLines [] = [] from rfl, List.append_nil]
      rw [joinLines_pair_blank]
      simp
    · by_cases ht : endsTerm3 (pyStrip y) = true
      · simp only [he, hh, ht, if_true, if_false, Bool.false_eq_true]
        rw [show structureLines [] = [] from rfl, List.append_nil]
        exact joinLines_singleton _
      · simp only [he, hh, ht, if_false, Bool.false_eq_true]
        rw [show structureLines [] = [] from rfl, List.append_nil]
        exact joinLines_singleton _

theorem normalize_noNl {x : Str} (h : noNl x) :
    normalize_spacing x = pyStrip (collapseRuns ' ' x) := by
  unfold normalize_spacing
  have h1 : noNl (collapseRuns ' ' x) :=
    noNl_subset (fun c hc => @runsGo_subset ' ' false _ c hc) h
  rw [collapseNl_noNl h1, splitLines_noNl h1]
  simp only [List.map_cons, List.map_nil]
  exact joinLines_singleton _

theorem normalize_append_nl {x : Str} (h : noNl x) :
    normalize_spacing (x ++ ['\n']) =
      pyStrip (collapseRuns ' ' x) ++ ['\n'] := by
  unfold normalize_spacing
  have hcs : collapseRuns ' ' (x ++ ['\n']) =
      collapseRuns ' ' x ++ ['\n'] :=
    runsGo_append_single (by decide) x false
  have h1 : noNl (collapseRuns ' ' x) :=
    noNl_subset (fun c hc => @runsGo_subset ' ' false _ c hc) h
  rw [hcs]
  have hcnt : countNl (collapseRuns ' ' x ++ ['\n']) < 3 := by
    unfold countNl at *
    rw [List.count_append]
    have := noNl_countNl h1
    unfold countNl at this
    simp [this]
  rw [collapseNl_low hcnt, splitLines_append_nl h1]
  simp only [List.map_cons, List.map_nil, pyStrip_nil]
  exact joinLines_pair_blank _

theorem shouldFilterLine_ne_nil {y : Str}
    (h : shouldFilterLine y = false) : y ≠ [] := by
  intro h0
  rw [h0] at h
  simp [shouldFilterLine] at h

/-! ### Evaluation of the full pipeline on one input -/

theorem clean_eval_filtered {t : Str} (ht : t.isEmpty = false)
    (hsf : shouldFilterLine (pyStrip (basic_cleanup t)) = true) :
    clean_and_structure t = [] := by
  unfold clean_and_structure
  rw [if_neg (by simp [ht])]
  rw [filter_unwanted_single (noNl_basic_cleanup t), if_pos hsf]
  have hs0 : structure_for_audio [] = [] := by
    rw [structure_single (fun c hc => absurd hc (List.not_mem_nil c))]
    simp [pyStrip_nil]
  rw [hs0]
  rw [normalize_noNl (fun c hc => absurd hc (List.not_mem_nil c))]
  rfl

theorem clean_eval_heading {t : Str} (ht : t.isEmpty = false)
    (hsf : shouldFilterLine (pyStrip (basic_cleanup t)) = false)
    (hh : is_heading (pyStrip (basic_cleanup t)) = true) :
    clean_and_structure t =
      collapseRuns ' ' (pyStrip (basic_cleanup t)) ++ ['.'] := by
  have hynl : noNl (pyStrip (basic_cleanup t)) :=
    noNl_subset (fun c hc => pyStrip_subset hc) (noNl_basic_cleanup t)
  have hystr : isStripped (pyStrip (basic_cleanup t)) :=
    pyStrip_isStripped _
  have hyne : pyStrip (basic_cleanup t) ≠ [] := shouldFilterLine_ne_nil hsf
  unfold clean_and_structure
  rw [if_neg (by simp [ht])]
  rw [filter_unwanted_single (noNl_basic_cleanup t),
    if_neg (by simp [hsf])]
  rw [structure_single hynl, pyStrip_idem]
  rw [if_neg (by simp [List.isEmpty_iff, hyne]), if_pos hh]
  rw [show pyStrip (basic_cleanup t) ++ ['.', '\n'] =
      (pyStrip (basic_cleanup t) ++ ['.']) ++ ['\n'] from by simp]
  have hnl2 : noNl (pyStrip (basic_cleanup t) ++ ['.']) := by
    intro c hc
    rcases List.mem_append.mp hc with h1 | h2
    · exact hynl c h1
    · simp at h2; rw [h2]; decide
  rw [normalize_append_nl hnl2]
  rw [show collapseRuns ' ' (pyStrip (basic_cleanup t) ++ ['.']) =
      collapseRuns ' ' (pyStrip (basic_cleanup t)) ++ ['.'] from
    runsGo_append_single (by decide) _ false]
  have hstr2 : isStripped
      (collapseRuns ' ' (pyStrip (basic_cleanup t)) ++ ['.']) := by
    apply isStripped_append_last
    · intro d hd
      unfold collapseRuns at hd
      rw [runsGo_head?_false] at hd
      exact hystr.1 d hd
    · decide
  rw [pyStrip_eq_self hstr2, pyStrip_append_ws (by decide),
    pyStrip_eq_self hstr2]

theorem clean_eval_keep {t : Str} (ht : t.isEmpty = false)
    (hsf : shouldFilterLine (pyStrip (basic_cleanup t)) = false)
    (hh : is_heading (pyStrip (basic_cleanup t)) = false)
    (hterm : endsTerm3 (pyStrip (basic_cleanup t)) = true) :
    clean_and_structure t =
      collapseRuns ' ' (pyStrip (basic_cleanup t)) := by
  have hynl : noNl (pyStrip (basic_cleanup t)) :=
    noNl_subset (fun c hc => pyStrip_subset hc) (noNl_basic_cleanup t)
  have hystr : isStripped (pyStrip (basic_cleanup t)) :=
    pyStrip_isStripped _
  have hyne : pyStrip (basic_cleanup t) ≠ [] := shouldFilterLine_ne_nil hsf
  unfold clean_and_structure
  rw [if_neg (by simp [ht])]
  rw [filter_unwanted_single (noNl_basic_cleanup t),
    if_neg (by simp [hsf])]
  rw [structure_single hynl, pyStrip_idem]
  rw [if_neg (by simp [List.isEmpty_iff, hyne]),
    if_neg (by simp [hh]), if_pos hterm]
  rw [normalize_noNl hynl]
  rw [pyStrip_eq_self (collapseRuns_space_stripped hystr),
    pyStrip_eq_self (collapseRuns_space_stripped hystr)]

theorem clean_eval_dot {t : Str} (ht : t.isEmpty = false)
    (hsf : shouldFilterLine (pyStrip (basic_cleanup t)) = false)
    (hh : is_heading (pyStrip (basic_cleanup t)) = false)
    (hterm : endsTerm3 (pyStrip (basic_cleanup t)) = false) :
    clean_and_structure t =
      collapseRuns ' ' (pyStrip (basic_cleanup t)) ++ ['.'] := by
  have hynl : noNl (pyStrip (basic_cleanup t)) :=
    noNl_subset (fun c hc => pyStrip_subset hc) (noNl_basic_cleanup t)
  have hystr : isStripped (pyStrip (basic_cleanup t)) :=
    pyStrip_isStripped _
  have hyne : pyStrip (basic_cleanup t) ≠ [] := shouldFilterLine_ne_nil hsf
  unfold clean_and_structure
  rw [if_neg (by simp [ht])]
  rw [filter_unwanted_single (noNl_basic_cleanup t),
    if_neg (by simp [hsf])]
  rw [structure_single hynl, pyStrip_idem]
  rw [if_neg (by simp [List.isEmpty_iff, hyne]),
    if_neg (by simp [hh]), if_neg (by simp [hterm])]
  have hnl2 : noNl (pyStrip (basic_cleanup t) ++ ['.']) := by
    intro c hc
    rcases List.mem_append.mp hc with h1 | h2
    · exact hynl c h1
    · simp at h2; rw [h2]; decide
  rw [normalize_noNl hnl2]
  rw [show collapseRuns ' ' (pyStrip (basic_cleanup t) ++ ['.']) =
      collapseRuns ' ' (pyStrip (basic_cleanup t)) ++ ['.'] from
    runsGo_append_single (by decide) _ false]
  have hstr2 : isStripped
      (collapseRuns ' ' (pyStrip (basic_cleanup t)) ++ ['.']) := by
    apply isStripped_append_last
    · intro d hd
      unfold collapseRuns at hd
      rw [runsGo_head?_false] at hd
      exact hystr.1 d hd
    · decide
  rw [pyStrip_eq_self hstr2, pyStrip_eq_self hstr2]

/-! ### The output of the pipeline is a wellformed single line -/

theorem goodLine_nil : goodLine [] := by
  refine ⟨?_, ?_, ?_, ?_, ?_, ?_, ?_, ⟨?_, ?_⟩, ?_⟩ <;>
    simp [noNl]

theorem basic_cleanup_allowed (t : Str) :
    ∀ c ∈ basic_cleanup t, allowedChar c = true := by
  intro c hc
  unfold basic_cleanup collapseRuns at hc
  have h1 := runsGo_subset false _ c hc
  have h2 := runsGo_subset false _ c h1
  have h3 := runsGo_subset false _ c h2
  exact (List.mem_filter.mp h3).2

theorem basic_cleanup_ws_space (t : Str) :
    ∀ c ∈ basic_cleanup t, isPyWs c = true → c = ' ' := by
  intro c hc hw
  unfold basic_cleanup collapseRuns at hc
  have h1 := runsGo_subset false _ c hc
  have h2 := runsGo_subset false _ c h1
  have h3 := runsGo_subset false _ c h2
  have h4 := (List.mem_filter.mp h3).1
  rw [collapseNl_noNl (noNl_collapseWs t)] at h4
  exact collapseWs_ws_space h4 hw

theorem basic_cleanup_chain_dot (t : Str) :
    (basic_cleanup t).Chain' (fun a b => ¬(a = '.' ∧ b = '.')) := by
  unfold basic_cleanup collapseRuns
  apply runsGo_chain_preserve (by decide) _ false
  apply runsGo_chain_preserve (by decide) _ false
  exact (runsGo_chain_self false _).1

theorem basic_cleanup_chain_q (t : Str) :
    (basic_cleanup t).Chain' (fun a b => ¬(a = '?' ∧ b = '?')) := by
  unfold basic_cleanup collapseRuns
  apply runsGo_chain_preserve (by decide) _ false
  exact (runsGo_chain_self false _).1

theorem basic_cleanup_chain_e (t : Str) :
    (basic_cleanup t).Chain' (fun a b => ¬(a = '!' ∧ b = '!')) := by
  unfold basic_cleanup collapseRuns
  exact (runsGo_chain_self false _).1

theorem goodLine_build {y : Str}
    (hall : ∀ c ∈ y, allowedChar c = true)
    (hws : ∀ c ∈ y, isPyWs c = true → c = ' ')
    (hdc : y.Chain' (fun a b => ¬(a = '.' ∧ b = '.')))
    (hqc : y.Chain' (fun a b => ¬(a = '?' ∧ b = '?')))
    (hec : y.Chain' (fun a b => ¬(a = '!' ∧ b = '!')))
    (hnl : noNl y) (hstr : isStripped y) (hne : y ≠ []) :
    (endsTerm3 y = true → goodLine (collapseRuns ' ' y)) ∧
    (y.getLast? ≠ some '.' → goodLine (collapseRuns ' ' y ++ ['.'])) := by
  obtain ⟨d, hlasty⟩ : ∃ d, y.getLast? = some d :=
    ⟨y.getLast hne, List.getLast?_eq_getLast_of_ne_nil hne⟩
  have hdws : isPyWs d = false := hstr.2 d hlasty
  have hdsp : d ≠ ' ' := by
    intro h0; rw [h0] at hdws; exact Bool.noConfusion hdws
  have hwlast : (collapseRuns ' ' y).getLast? = some d :=
    runsGo_getLast hdsp y false hlasty
  have wall : ∀ c ∈ collapseRuns ' ' y, allowedChar c = true :=
    fun c hc => hall c (runsGo_subset false _ c hc)
  have wws : ∀ c ∈ collapseRuns ' ' y, isPyWs c = true → c = ' ' :=
    fun c hc hw => hws c (runsGo_subset false _ c hc) hw
  have wdc := runsGo_chain_preserve (c := ' ') (by decide) y false hdc
  have wqc := runsGo_chain_preserve (c := ' ') (by decide) y false hqc
  have wec := runsGo_chain_preserve (c := ' ') (by decide) y false hec
  have wspc := (@runsGo_chain_self ' ' false y).1
  have wnl : noNl (collapseRuns ' ' y) :=
    noNl_subset (fun c hc => runsGo_subset false _ c hc) hnl
  have wstr : isStripped (collapseRuns ' ' y) :=
    collapseRuns_space_stripped hstr
  have wne : collapseRuns ' ' y ≠ [] :=
    runsGo_ne_nil false y ⟨d, List.mem_of_mem_getLast? hlasty, hdsp⟩
  constructor
  · intro hterm
    have hwterm : endsTerm3 (collapseRuns ' ' y) = true := by
      unfold endsTerm3 at hterm ⊢
      rw [hwlast]
      rw [hlasty] at hterm
      exact hterm
    exact ⟨wall, wws, wspc, wdc, wqc, wec, wnl, wstr, fun _ => hwterm⟩
  · intro hlast
    have hddot : d ≠ '.' := by
      intro h0
      rw [h0] at hlasty
      exact hlast hlasty
    have pall : ∀ c ∈ collapseRuns ' ' y ++ ['.'], allowedChar c = true := by
      intro c hc
      rcases List.mem_append.mp hc with h1 | h2
      · exact wall c h1
      · simp at h2; rw [h2]; decide
    have pws : ∀ c ∈ collapseRuns ' ' y ++ ['.'],
        isPyWs c = true → c = ' ' := by
      intro c hc hw
      rcases List.mem_append.mp hc with h1 | h2
      · exact wws c h1 hw
      · simp at h2; rw [h2] at hw; exact Bool.noConfusion hw
    have pchain : ∀ (R : Char → Char → Prop),
        (collapseRuns ' ' y).Chain' R → R d '.' →
        (collapseRuns ' ' y ++ ['.']).Chain' R := by
      intro R hR hRd
      rw [List.chain'_append]
      refine ⟨hR, by simp, ?_⟩
      intro x hx c hc
      rw [hwlast] at hx
      simp at hx hc
      rw [← hx, ← hc]
      exact hRd
    have pnl : noNl (collapseRuns ' ' y ++ ['.']) := by
      intro c hc
      rcases List.mem_append.mp hc with h1 | h2
      · exact wnl c h1
      · simp at h2; rw [h2]; decide
    have pstr : isStripped (collapseRuns ' ' y ++ ['.']) :=
      isStripped_append_last wstr.1 (by decide)
    have pterm : endsTerm3 (collapseRuns ' ' y ++ ['.']) = true := by
      unfold endsTerm3
      rw [getLast?_append_singleton]
      decide
    refine ⟨pall, pws, ?_, ?_, ?_, ?_, pnl, pstr, fun _ => pterm⟩
    · exact pchain _ wspc (by simp)
    · exact pchain _ wdc (by simp [hddot])
    · exact pchain _ wqc (by simp)
    · exact pchain _ wec (by simp)

theorem goodLine_clean (t : Str) : goodLine (clean_and_structure t) := by
  by_cases ht : t.isEmpty = true
  · have h0 : clean_and_structure t = [] := by
      unfold clean_and_structure; rw [if_pos ht]
    rw [h0]; exact goodLine_nil
  · replace ht : t.isEmpty = false := by simpa using ht
    by_cases hsf : shouldFilterLine (pyStrip (basic_cleanup t)) = true
    · rw [clean_eval_filtered ht hsf]; exact goodLine_nil
    · replace hsf : shouldFilterLine (pyStrip (basic_cleanup t)) = false := by
        simpa using hsf
      have hyall : ∀ c ∈ pyStrip (basic_cleanup t), allowedChar c = true :=
        fun c hc => basic_cleanup_allowed t c (pyStrip_subset hc)
      have hyws : ∀ c ∈ pyStrip (basic_cleanup t),
          isPyWs c = true → c = ' ' :=
        fun c hc hw => basic_cleanup_ws_space t c (pyStrip_subset hc) hw
      have hydc := List.Chain'.infix (basic_cleanup_chain_dot t) (pyStrip_isInfixOf _)
      have hyqc := List.Chain'.infix (basic_cleanup_chain_q t) (pyStrip_isInfixOf _)
      have hyec := List.Chain'.infix (basic_cleanup_chain_e t) (pyStrip_isInfixOf _)
      have hynl : noNl (pyStrip (basic_cleanup t)) :=
        noNl_subset (fun c hc => pyStrip_subset hc) (noNl_basic_cleanup t)
      have hystr := pyStrip_isStripped (basic_cleanup t)
      have hyne := shouldFilterLine_ne_nil hsf
      have hb := goodLine_build hyall hyws hydc hyqc hyec hynl hystr hyne
      by_cases hh : is_heading (pyStrip (basic_cleanup t)) = true
      · rw [clean_eval_heading ht hsf hh]
        apply hb.2
        intro hdot
        have hsuf : List.isSuffixOf ['.'] (pyStrip (basic_cleanup t)) =
            true := isSuffixOf_singleton.mpr hdot
        have hanytrue : headingEnds.any
            (fun c => List.isSuffixOf [c] (pyStrip (basic_cleanup t))) =
            true := List.any_eq_true.mpr ⟨'.', by decide, hsuf⟩
        unfold is_heading at hh
        rw [hanytrue] at hh
        simp at hh
      · replace hh : is_heading (pyStrip (basic_cleanup t)) = false := by
          simpa using hh
        by_cases hterm : endsTerm3 (pyStrip (basic_cleanup t)) = true
        · rw [clean_eval_keep ht hsf hh hterm]
          exact hb.1 hterm
        · replace hterm : endsTerm3 (pyStrip (basic_cleanup t)) = false := by
            simpa using hterm
          rw [clean_eval_dot ht hsf hh hterm]
          apply hb.2
          intro hdot
          unfold endsTerm3 at hterm
          rw [hdot] at hterm
          simp [isTermChar] at hterm

theorem is_heading_of_term {L : Str} (hterm : endsTerm3 L = true) :
    is_heading L = false := by
  unfold endsTerm3 at hterm
  cases hl : L.getLast? with
  | none => rw [hl] at hterm; exact Bool.noConfusion hterm
  | some c =>
    rw [hl] at hterm
    have hmem : c ∈ headingEnds := by
      unfold isTermChar at hterm
      rcases Bool.or_eq_true_iff.mp hterm with h1 | h2
      · rcases Bool.or_eq_true_iff.mp h1 with h3 | h4
        · rw [decide_eq_true_iff.mp h3]; decide
        · rw [decide_eq_true_iff.mp h4]; decide
      · rw [decide_eq_true_iff.mp h2]; decide
    have hsuf : List.isSuffixOf [c] L = true := isSuffixOf_singleton.mpr hl
    have hany : headingEnds.any (fun d => List.isSuffixOf [d] L) = true :=
      List.any_eq_true.mpr ⟨c, hmem, hsuf⟩
    unfold is_heading
    rw [hany]
    simp

theorem clean_good {L : Str} (h : goodLine L) :
    clean_and_structure L =
      if shouldFilterLine L = true then [] else L := by
  by_cases hL : L = []
  · subst hL
    have h0 : clean_and_structure [] = [] := by
      unfold clean_and_structure; simp
    rw [h0, if_pos (by decide)]
  · have htL : L.isEmpty = false := by
      cases L with
      | nil => exact absurd rfl hL
      | cons a r => rfl
    obtain ⟨hall, hws, hspc, hdc, hqc, hec, hnl, hstr, hterm⟩ := h
    have hterm2 := hterm hL
    have hbc : basic_cleanup L = L := by
      unfold basic_cleanup
      have h1 : collapseWs L = L :=
        wsGo_false_eq_self L hws (chain_space_to_ws hws hspc)
      rw [show collapseWs L = L from h1, collapseNl_noNl hnl]
      rw [show removeDisallowed L = L from List.filter_eq_self.mpr hall]
      rw [show collapseRuns '.' L = L from runsGo_eq_self L hdc]
      rw [show collapseRuns '?' L = L from runsGo_eq_self L hqc]
      exact runsGo_eq_self L hec
    have hys : pyStrip (basic_cleanup L) = L := by
      rw [hbc]; exact pyStrip_eq_self hstr
    by_cases hsf : shouldFilterLine L = true
    · rw [if_pos hsf]
      exact clean_eval_filtered htL (by rw [hys]; exact hsf)
    · replace hsf : shouldFilterLine L = false := by simpa using hsf
      rw [if_neg (by simp [hsf])]
      have hhd : is_heading L = false := is_heading_of_term hterm2
      have heval := clean_eval_keep htL (by rw [hys]; exact hsf)
        (by rw [hys]; exact hhd) (by rw [hys]; exact hterm2)
      rw [heval, hys]
      exact runsGo_eq_self L hspc

/-! ### Claims C6 and C9 -/

/-- Claim C6 counterexample: clean_and_structure is not idempotent.  On
the all-digit input the first pass appends a terminal dot, and the
resulting digits-plus-dot line matches the step-unit noise rule of the
filter, so the second pass returns the empty string. -/
theorem C6_counterexample :
    clean_and_structure (toL "123") = toL "123." ∧
    clean_and_structure (clean_and_structure (toL "123")) = [] ∧
    clean_and_structure (clean_and_structure (toL "123")) ≠
      clean_and_structure (toL "123") := by
  refine ⟨by decide, by decide, by decide⟩

/-- Claim C6, amended: a second pass of clean_and_structure re-runs the
noise filter on the single output line; it returns the output unchanged
exactly when that line matches no noise rule, and the empty string when
it does (the appended terminal dot or the collapsed spaces of the first
pass can create a fresh match, as the counterexample shows). -/
theorem C6_amended (t : Str) :
    clean_and_structure (clean_and_structure t) =
      if shouldFilterLine (clean_and_structure t) = true then []
      else clean_and_structure t :=
  clean_good (goodLine_clean t)

/-- Claim C9: the string returned by clean_and_structure never contains
a newline: the first cleanup pattern folds the whole document into a
single line (line splitting after basic cleanup returns exactly one
line), and the final strip removes the one newline the structuring pass
can add after a heading. -/
theorem C9_no_newline (t : Str) :
    (clean_and_structure t).contains '\n' = false ∧
    splitLines (basic_cleanup t) = [basic_cleanup t] := by
  constructor
  · have hnl := (goodLine_clean t).2.2.2.2.2.2.1
    rw [← Bool.not_eq_true]
    intro hcon
    have hmem : '\n' ∈ clean_and_structure t := by simpa using hcon
    exact hnl '\n' hmem rfl
  · exact splitLines_noNl (noNl_basic_cleanup t)
